import Mathlib

/-!
Verification of the RateRover exchange-rate scraper and bot
(`src/main.py`, `src/bot.py`) against its natural-language specification.

Shallow embedding conventions:
* calendar dates are day numbers in `ℤ` (one unit = one day);
* JSON numbers are `ℚ` (all comparisons and the arithmetic in the code are
  exact on the rationals that appear);
* a Python dict keyed by ISO date is an association list `List (ℤ × α)`
  whose key list is `Nodup` (dict keys are unique); `dict[k] = v` on an
  existing key replaces the value in place, otherwise appends;
* a Python function that can raise returns `Option`/`Except`;
* `sorted(keys, reverse=True)` is the reverse of a stable ascending sort,
  which on `Nodup` keys is exactly Python's descending sort.
-/

/-- A per-currency rate record, `{countryName, buyingRate, sellingRate}`
as built by `SuperrichAPI.extract_all_rates` (main.py lines 144-153). -/
structure RateRecord where
  countryName : String
  buyingRate : ℚ
  sellingRate : ℚ
deriving DecidableEq, Repr

/-- The per-currency mapping stored for one day: currency code to record. -/
abbrev Rates := List (String × RateRecord)

/-- One day's snapshot as written by `SuperrichAPI.store_results`
(main.py lines 159-162): a timestamp plus the rates mapping. -/
structure Snapshot where
  timestamp : String
  rates : Rates
deriving DecidableEq

/-- The persisted time series: ISO-date key to snapshot
(top level of `exchange_rates.json`). -/
abbrev Series := List (ℤ × Snapshot)

namespace Series

/-- Dict lookup `data[k]`, first match in the association list. -/
def lookup (s : Series) (k : ℤ) : Option Snapshot :=
  match s with
  | [] => none
  | (k', v) :: rest => if k' = k then some v else lookup rest k

/-- The key list of the dict. -/
def keys (s : Series) : List ℤ := s.map Prod.fst

end Series

/-- Dict assignment `data[today] = new_record` (main.py line 72): replace in
place when the key exists, else append at the end (Python dict semantics). -/
def dictInsert (k : ℤ) (v : Snapshot) (s : Series) : Series :=
  if k ∈ s.keys then
    s.map (fun kv => if kv.1 = k then (k, v) else kv)
  else
    s ++ [(k, v)]

/-- Embedding of `ExchangeRateStorage.update_or_add_record` (main.py lines 63-78) with the
load/save I/O factored out: set `data[today] = new_record`, then keep only the
keys whose date is at least `today - 14` (the dict comprehension on line 76;
`cutoff_date.date()` is `today - 14` in day numbers). -/
def update_or_add_record (today : ℤ) (new_record : Snapshot) (data : Series) :
    Series :=
  (dictInsert today new_record data).filter (fun kv => today - 14 ≤ kv.1)

/-! ### Trend logic (bot.py, `format_rates_message`) -/

namespace ExchangeRateBot

/-- Direction marker attached to a buying rate in
`ExchangeRateBot.format_rates_message`: the strings on bot.py lines 298 and
300, and the empty marker left by the untouched initializer on line 295. -/
inductive Trend where
  | up
  | down
  | flat
deriving DecidableEq, Repr

/-- The trend computation of `format_rates_message` (bot.py lines 294-300):
with no previous rate (`previous_rate == "N/A"`) the marker stays empty
(FLAT); otherwise compare the current to the previous buying rate. -/
def trend (current : ℚ) (previous : Option ℚ) : Trend :=
  match previous with
  | none => .flat
  | some p => if current > p then .up else if current < p then .down else .flat

/-! ### History bar normalization (bot.py, `process_currency_rates`) -/

/-- Bar length for one rate (bot.py line 401):
`int((normalized_rate / max_normalized) * 20) if max_normalized != 0 else 0`.
Python `int()` truncates toward zero; since `mn ≤ rate` the quotient is
nonnegative, so truncation equals `⌊·⌋`. -/
def barLength (mn mx rate : ℚ) : ℕ :=
  if mx - mn ≠ 0 then (⌊(rate - mn) / (mx - mn) * 20⌋).toNat else 0

/-- The normalization pass of `process_currency_rates` (bot.py lines
388-403) restricted to the collected non-absent buying rates: compute
`min`/`max` of the valid rates, then map each rate to its bar length. -/
def normalize (rates : List ℚ) : List ℕ :=
  match rates with
  | [] => []
  | r :: rs =>
    let mn := rs.foldl min r
    let mx := rs.foldl max r
    rates.map (barLength mn mx)

/-- Written from the spec's words for comparison with `normalize`
(spec section 4.4): bar length `round(20 * (rate - min) / (max - min))`,
or `0` for every point when `max == min`. -/
def normalizeSpec (rates : List ℚ) : List ℕ :=
  match rates with
  | [] => []
  | r :: rs =>
    let mn := rs.foldl min r
    let mx := rs.foldl max r
    rates.map (fun rate =>
      if mx - mn ≠ 0 then (round ((20 : ℚ) * (rate - mn) / (mx - mn))).toNat
      else 0)

end ExchangeRateBot

/-! ### Credential decoding (main.py, `decode_basic_auth`) -/

/-- Python `str.split(sep)` for a single-character separator: splits on
every occurrence, keeping empty pieces (so the result always has
`count + 1` pieces). -/
def splitOnChar (c : Char) : List Char → List (List Char)
  | [] => [[]]
  | x :: xs =>
    let r := splitOnChar c xs
    if x = c then [] :: r
    else
      match r with
      | [] => [[x]]
      | y :: ys => (x :: y) :: ys

/-- Embedding of `SuperrichAPI.decode_basic_auth` (main.py lines 110-115) after the
base64 layer: the library call `base64.b64decode(...).decode('utf-8')` is a
bijection between valid payloads and decoded strings, so the embedding works
on the decoded character list. Line 114 is
`self.username, self.password = decoded_auth.split(':')`: Python splits on
EVERY colon and the 2-tuple unpacking raises `ValueError` unless the split
yields exactly two pieces. -/
def decode_basic_auth (decoded : List Char) : Option (List Char × List Char) :=
  match splitOnChar ':' decoded with
  | [u, p] => some (u, p)
  | _ => none

/-! ### Persisted-file reads -/

/-- Embedding of `ExchangeRateStorage.load_data` (main.py lines 40-50) with the file reads
factored out: `parsed` is the outcome of the library call `json.load`
(`none` when it raises `json.JSONDecodeError` on malformed content).
The handler on lines 47-49 swallows the failure and substitutes `{}`. -/
def load_data (parsed : Option Series) : Series :=
  match parsed with
  | some data => data
  | none => []

/-- Embedding of `ExchangeRateBot.load_exchange_rates` (bot.py lines 253-262) with the
file I/O factored out: the handler on lines 260-262 logs and then
RE-RAISES (`raise`), so a parse failure propagates to the caller. -/
def load_exchange_rates (parsed : Option Series) : Except Unit Series :=
  match parsed with
  | some data => .ok data
  | none => .error ()

/-! ### Sorted dates, latest rates and history selection (bot.py) -/

/-- Embedding of `sorted(self.exchange_rates.keys(), reverse=True)` (bot.py lines 276 and
357): descending date order. Embedded as the reverse of a stable ascending
sort, which coincides with Python's descending sort on `Nodup` keys. -/
def sortedDatesDesc (s : Series) : List ℤ :=
  (List.insertionSort (· ≤ ·) s.keys).reverse

namespace ExchangeRateBot

/-- Embedding of `ExchangeRateBot.get_latest_rates` (bot.py lines 272-286): the maximum
date's rates, and the second-maximum date's rates when a second date
exists. On an empty series `sorted_dates[0]` raises `IndexError`, which the
handler re-raises (`none`). The inner `none` branches are unreachable:
the sorted dates come from the dict's own keys. -/
def get_latest_rates (s : Series) : Option (ℤ × Rates × Option Rates) :=
  match sortedDatesDesc s with
  | [] => none
  | d0 :: rest =>
    match s.lookup d0 with
    | none => none
    | some snap =>
      match rest with
      | [] => some (d0, snap.rates, none)
      | d1 :: _ =>
        match s.lookup d1 with
        | none => none
        | some snap1 => some (d0, snap.rates, some snap1.rates)

/-- The selection loop of `process_currency_rates` (bot.py lines 361-366):
walk `dates` in order, keep each date whose offset from `current` is an
even number of days, and break as soon as `k` dates have been collected
(Python appends first and then tests `len(selected_dates) >= 10`). -/
def selectDates (current : ℤ) (k : ℕ) : List ℤ → List ℤ
  | [] => []
  | d :: ds =>
    if (current - d) % 2 = 0 then
      if k ≤ 1 then [d] else d :: selectDates current (k - 1) ds
    else selectDates current k ds

/-- Lookup in the per-day rates dict, `rates[currency]`. -/
def ratesLookup (r : Rates) (currency : String) : Option RateRecord :=
  match r with
  | [] => none
  | (c, v) :: rest => if c = currency then some v else ratesLookup rest currency

/-- The per-date rate extraction of `process_currency_rates` (bot.py lines
370-376): the stored buying rate when the currency is present for that
date, else `none` (the absent marker). A date outside the series cannot
occur (dates come from the keys); that branch also yields `none`. -/
def buyingRateAt (s : Series) (currency : String) (d : ℤ) : Option ℚ :=
  match s.lookup d with
  | none => none
  | some snap =>
    match ratesLookup snap.rates currency with
    | none => none
    | some rec => some rec.buyingRate

/-- The history part of `ExchangeRateBot.process_currency_rates` (bot.py
lines 355-376): sort dates descending, select every-2-days dates up to 10
starting at the most recent, and pair each with its (possibly absent)
buying rate. On an empty series `sorted_dates[0]` raises `IndexError`
(`none`, caught by the generic handler). -/
def history (currency : String) (s : Series) : Option (List (ℤ × Option ℚ)) :=
  match sortedDatesDesc s with
  | [] => none
  | d0 :: rest =>
    let sel := selectDates d0 10 (d0 :: rest)
    some (sel.map (fun d => (d, buyingRateAt s currency d)))

end ExchangeRateBot

/-! ### The scrape pipeline (main.py, `SuperrichAPI.run`) -/

/-- The upstream rate tier, one element of `item['rate']`
(main.py lines 149-150). -/
structure RateTier where
  cBuying : ℚ
  cSelling : ℚ
deriving DecidableEq, Repr

/-- One entry of `data['data']['exchangeRate']` (main.py lines 145-151). -/
structure ApiItem where
  cUnit : String
  countryName : String
  rate : List RateTier
deriving DecidableEq, Repr

/-- The parsed API response body, `data['data']['exchangeRate']`. -/
abbrev ApiData := List ApiItem

/-- Dict assignment `rates[currency] = {...}` on String keys
(main.py lines 147-151). -/
def ratesInsert (k : String) (v : RateRecord) (r : Rates) : Rates :=
  if k ∈ r.map Prod.fst then
    r.map (fun kv => if kv.1 = k then (k, v) else kv)
  else
    r ++ [(k, v)]

/-- Embedding of `SuperrichAPI.extract_all_rates` (main.py lines 137-153): build the
currency dict from the response items, taking the first rate tier of each;
`item['rate'][0]` raises `IndexError` when an item's tier list is empty,
which aborts the loop (`none`). -/
def extract_all_rates (data : ApiData) : Option Rates :=
  data.foldlM
    (fun acc item =>
      match item.rate with
      | [] => none
      | t :: _ =>
        some (ratesInsert item.cUnit
          ⟨item.countryName, t.cBuying, t.cSelling⟩ acc))
    []

/-- Failure classification for the pipeline steps of `SuperrichAPI.run`
(each `raise` in main.py lines 89-153). -/
inductive PipelineError where
  | fetchError (status : ℕ)
  | extractionError
  | decodeError
  | apiError (status : ℕ)
  | parseError
deriving DecidableEq, Repr

/-- Embedding of `SuperrichAPI.run` (main.py lines 165-191) with the network factored
out: `js` is the outcome of the `requests.get(js_url)` fetch (main.py lines
92-97, error carries the non-200 status); `search` is the outcome of the
`re.search` in `extract_basic_auth` (main.py lines 102-108, the extracted
base64 payload already b64-decoded to characters, or `none` when the
pattern is absent); `api` is the outcome of the authenticated
`requests.get(api_url)` given the decoded credential (main.py lines
129-135). `store_results` (main.py lines 155-163) runs only after every
step succeeded; any raise is caught by the `except` on line 190 after
which the store is left untouched. Returns the final store and the run's
outcome. -/
def run (js : Except ℕ (List Char))
    (search : List Char → Option (List Char))
    (api : List Char × List Char → Except ℕ ApiData)
    (today : ℤ) (ts : String) (store : Series) :
    Series × Except PipelineError Snapshot :=
  match js with
  | .error code => (store, .error (.fetchError code))
  | .ok content =>
    match search content with
    | none => (store, .error .extractionError)
    | some payload =>
      match decode_basic_auth payload with
      | none => (store, .error .decodeError)
      | some cred =>
        match api cred with
        | .error code => (store, .error (.apiError code))
        | .ok data =>
          match extract_all_rates data with
          | none => (store, .error .parseError)
          | some rates =>
            let snap : Snapshot := ⟨ts, rates⟩
            (update_or_add_record today snap store, .ok snap)


/-! ### Consecutive-day series (for the spec's 20-day example) -/

/-- The key list `[D, D-1, ..., D-(m-1)]`: `m` consecutive daily dates,
most recent first. -/
def descRange (D : ℤ) (m : ℕ) : List ℤ :=
  (List.range m).map (fun (i : ℕ) => D - (i : ℤ))

/-- A series of `m` consecutive daily dates ending at `D`, the snapshot
for date `D - i` being `snap i`. -/
def consecSeries (D : ℤ) (m : ℕ) (snap : ℕ → Snapshot) : Series :=
  (List.range m).map (fun (i : ℕ) => (D - (i : ℤ), snap i))

/-! ## Helper lemmas -/

theorem foldl_min_le {α : Type} [LinearOrder α] (l : List α) :
    ∀ (a x : α), x ∈ a :: l → l.foldl min a ≤ x := by
  induction l with
  | nil =>
    intro a x hx
    simp at hx
    simp [hx]
  | cons b t ih =>
    intro a x hx
    rw [List.foldl_cons]
    have hmin : t.foldl min (min a b) ≤ min a b :=
      ih (min a b) (min a b) (List.mem_cons_self _ _)
    rcases List.mem_cons.mp hx with h | h
    · subst h
      exact le_trans hmin (min_le_left x b)
    · rcases List.mem_cons.mp h with h' | h'
      · subst h'
        exact le_trans hmin (min_le_right a x)
      · exact ih (min a b) x (List.mem_cons_of_mem _ h')

theorem foldl_min_mem {α : Type} [LinearOrder α] (l : List α) :
    ∀ (a : α), l.foldl min a ∈ a :: l := by
  induction l with
  | nil => intro a; simp
  | cons b t ih =>
    intro a
    rw [List.foldl_cons]
    rcases List.mem_cons.mp (ih (min a b)) with h' | h'
    · rw [h']
      rcases min_choice a b with hc | hc <;> rw [hc]
      · exact List.mem_cons_self _ _
      · exact List.mem_cons_of_mem _ (List.mem_cons_self _ _)
    · exact List.mem_cons_of_mem _ (List.mem_cons_of_mem _ h')

theorem le_foldl_max {α : Type} [LinearOrder α] (l : List α) :
    ∀ (a x : α), x ∈ a :: l → x ≤ l.foldl max a := by
  induction l with
  | nil =>
    intro a x hx
    simp at hx
    simp [hx]
  | cons b t ih =>
    intro a x hx
    rw [List.foldl_cons]
    have hmax : max a b ≤ t.foldl max (max a b) :=
      ih (max a b) (max a b) (List.mem_cons_self _ _)
    rcases List.mem_cons.mp hx with h | h
    · subst h
      exact le_trans (le_max_left x b) hmax
    · rcases List.mem_cons.mp h with h' | h'
      · subst h'
        exact le_trans (le_max_right a x) hmax
      · exact ih (max a b) x (List.mem_cons_of_mem _ h')

theorem foldl_max_mem {α : Type} [LinearOrder α] (l : List α) :
    ∀ (a : α), l.foldl max a ∈ a :: l := by
  induction l with
  | nil => intro a; simp
  | cons b t ih =>
    intro a
    rw [List.foldl_cons]
    rcases List.mem_cons.mp (ih (max a b)) with h' | h'
    · rw [h']
      rcases max_choice a b with hc | hc <;> rw [hc]
      · exact List.mem_cons_self _ _
      · exact List.mem_cons_of_mem _ (List.mem_cons_self _ _)
    · exact List.mem_cons_of_mem _ (List.mem_cons_of_mem _ h')

/-! ## Claim C1 -/

/-- Claim C1 as stated is false: the code truncates with `int(...)`
(bot.py line 401) instead of rounding. Over the collected rates
`[0, 1, 3]` the middle point's fraction is `20/3 ≈ 6.67`: the claimed
`round` formula (embedded verbatim in `normalizeSpec`) gives bar length 7,
while the code (`normalize`) produces 6. -/
theorem C1_round_counterexample :
    ExchangeRateBot.normalize [0, 1, 3] = [0, 6, 20] ∧
    ExchangeRateBot.normalizeSpec [0, 1, 3] = [0, 7, 20] := by
  constructor
  · norm_num [ExchangeRateBot.normalize, ExchangeRateBot.barLength]
    decide
  · norm_num [ExchangeRateBot.normalizeSpec, round_eq]
    decide

/-- Claim C1, amended: for every nonempty collection of collected
non-absent buying rates with minimum `mn` and maximum `mx`, `normalize`
assigns each point the bar length `⌊20 * (rate - mn) / (mx - mn)⌋`
(truncation, not rounding) when `mx ≠ mn`, and bar length `0` for every
point when `mx = mn`; rates `[1.0, 2.0, 3.0]` yield `[0, 10, 20]` and
`[5.0, 5.0]` yields `[0, 0]`. -/
theorem C1_normalize_truncates :
    (∀ (r : ℚ) (rs : List ℚ),
      (rs.foldl min r ∈ r :: rs ∧ rs.foldl max r ∈ r :: rs ∧
        ∀ x ∈ r :: rs, rs.foldl min r ≤ x ∧ x ≤ rs.foldl max r) ∧
      (rs.foldl max r ≠ rs.foldl min r →
        ExchangeRateBot.normalize (r :: rs) =
          (r :: rs).map (fun x =>
            (⌊20 * (x - rs.foldl min r) /
              (rs.foldl max r - rs.foldl min r)⌋).toNat)) ∧
      (rs.foldl max r = rs.foldl min r →
        ExchangeRateBot.normalize (r :: rs) = (r :: rs).map (fun _ => 0))) ∧
    ExchangeRateBot.normalize [1, 2, 3] = [0, 10, 20] ∧
    ExchangeRateBot.normalize [5, 5] = [0, 0] := by
  refine ⟨fun r rs => ⟨⟨foldl_min_mem rs r, foldl_max_mem rs r, fun x hx =>
    ⟨foldl_min_le rs r x hx, le_foldl_max rs r x hx⟩⟩, ?_, ?_⟩, ?_, ?_⟩
  · intro hne
    unfold ExchangeRateBot.normalize
    apply List.map_congr_left
    intro x _
    unfold ExchangeRateBot.barLength
    rw [if_pos (sub_ne_zero.mpr hne)]
    congr 1
    congr 1
    ring
  · intro heq
    unfold ExchangeRateBot.normalize
    apply List.map_congr_left
    intro x _
    unfold ExchangeRateBot.barLength
    rw [if_neg (by simp [heq])]
  · norm_num [ExchangeRateBot.normalize, ExchangeRateBot.barLength]
    decide
  · norm_num [ExchangeRateBot.normalize, ExchangeRateBot.barLength]

/-- Witness for `C1_normalize_truncates`: the non-flat branch at the
concrete rate list `[1, 2, 3]`. -/
theorem C1_normalize_truncates_witness :
    ExchangeRateBot.normalize [1, (2 : ℚ), 3] =
      [1, (2 : ℚ), 3].map (fun x =>
        (⌊20 * (x - [(2 : ℚ), 3].foldl min 1) /
          ([(2 : ℚ), 3].foldl max 1 - [(2 : ℚ), 3].foldl min 1)⌋).toNat) :=
  (C1_normalize_truncates.1 1 [2, 3]).2.1 (by norm_num)

/-! ## Claim C2 -/

theorem splitOnChar_ne_nil (c : Char) : ∀ (s : List Char), splitOnChar c s ≠ [] := by
  intro s
  induction s with
  | nil => simp [splitOnChar]
  | cons x xs ih =>
    unfold splitOnChar
    by_cases hx : x = c
    · simp [hx]
    · simp only [if_neg hx]
      cases h : splitOnChar c xs with
      | nil => simp
      | cons y ys => simp

theorem splitOnChar_of_not_mem (c : Char) :
    ∀ (s : List Char), c ∉ s → splitOnChar c s = [s] := by
  intro s
  induction s with
  | nil => intro _; rfl
  | cons x xs ih =>
    intro hmem
    have hx : x ≠ c := fun h => hmem (h ▸ List.mem_cons_self x xs)
    have hxs : c ∉ xs := fun h => hmem (List.mem_cons_of_mem x h)
    unfold splitOnChar
    rw [ih hxs]
    simp [hx]

theorem splitOnChar_cons_ne (c x : Char) (xs : List Char) (hx : x ≠ c) :
    splitOnChar c (x :: xs) =
      match splitOnChar c xs with
      | [] => [[x]]
      | y :: ys => (x :: y) :: ys := by
  rw [splitOnChar]
  simp [hx]

theorem splitOnChar_append_cons (c : Char) :
    ∀ (u p : List Char), c ∉ u →
      splitOnChar c (u ++ c :: p) = u :: splitOnChar c p := by
  intro u
  induction u with
  | nil =>
    intro p _
    simp [splitOnChar]
  | cons x xs ih =>
    intro p hmem
    have hx : x ≠ c := fun h => hmem (h ▸ List.mem_cons_self x xs)
    have hxs : c ∉ xs := fun h => hmem (List.mem_cons_of_mem x h)
    rw [List.cons_append, splitOnChar_cons_ne c x _ hx, ih p hxs]

theorem splitOnChar_eq_singleton (c : Char) :
    ∀ (s y : List Char), splitOnChar c s = [y] → s = y ∧ c ∉ y := by
  intro s
  induction s with
  | nil =>
    intro y h
    simp [splitOnChar] at h
    subst h
    exact ⟨rfl, List.not_mem_nil c⟩
  | cons x xs ih =>
    intro y h
    unfold splitOnChar at h
    by_cases hx : x = c
    · rw [if_pos hx] at h
      cases hr : splitOnChar c xs with
      | nil => exact absurd hr (splitOnChar_ne_nil c xs)
      | cons z zs => rw [hr] at h; simp at h
    · rw [if_neg hx] at h
      cases hr : splitOnChar c xs with
      | nil => exact absurd hr (splitOnChar_ne_nil c xs)
      | cons z zs =>
        rw [hr] at h
        simp only [List.cons.injEq] at h
        obtain ⟨hy, hzs⟩ := h
        subst hzs
        obtain ⟨hxz, hc⟩ := ih z hr
        subst hxz
        refine ⟨by rw [hy], ?_⟩
        rw [← hy]
        intro hmem
        rcases List.mem_cons.mp hmem with h' | h'
        · exact hx h'.symm
        · exact hc h'

theorem splitOnChar_eq_pair (c : Char) :
    ∀ (s u p : List Char), splitOnChar c s = [u, p] →
      s = u ++ c :: p ∧ c ∉ u ∧ c ∉ p := by
  intro s
  induction s with
  | nil =>
    intro u p h
    simp [splitOnChar] at h
  | cons x xs ih =>
    intro u p h
    unfold splitOnChar at h
    by_cases hx : x = c
    · rw [if_pos hx] at h
      simp only [List.cons.injEq] at h
      obtain ⟨hu, hrest⟩ := h
      obtain ⟨hxs, hcp⟩ := splitOnChar_eq_singleton c xs p (by rw [hrest])
      refine ⟨?_, ?_, hcp⟩
      · rw [← hu, hx, hxs]
        rfl
      · rw [← hu]
        exact List.not_mem_nil c
    · rw [if_neg hx] at h
      cases hr : splitOnChar c xs with
      | nil => exact absurd hr (splitOnChar_ne_nil c xs)
      | cons z zs =>
        rw [hr] at h
        simp only [List.cons.injEq] at h
        obtain ⟨hu, hzs⟩ := h
        have hxs : splitOnChar c xs = [z, p] := by
          rw [hr]
          cases zs with
          | nil => simp at hzs
          | cons w ws =>
            simp only [List.cons.injEq] at hzs
            simp [hzs.1, hzs.2]
        obtain ⟨hs, hcz, hcp⟩ := ih z p hxs
        refine ⟨?_, ?_, hcp⟩
        · rw [← hu, hs]
          rfl
        · rw [← hu]
          intro hmem
          rcases List.mem_cons.mp hmem with h' | h'
          · exact hx h'.symm
          · exact hcz h'

/-- Claim C2 as stated is false: the code splits on EVERY colon
(`decoded_auth.split(':')`, main.py line 114) and the 2-tuple unpacking
raises `ValueError` when the password itself contains `':'`. The decoded
payload `"u:p:q"` — username `u`, password `p:q` — fails to decode,
although its separator is present and the base64 transport was valid. -/
theorem C2_password_colon_counterexample :
    decode_basic_auth (['u'] ++ ':' :: ['p', ':', 'q']) = none := by
  rfl

/-- Claim C2, amended: decoding succeeds exactly on decoded payloads
containing a single `':'`. For every `user`/`pass` pair in which neither
part contains `':'`, decoding `user ++ ":" ++ pass` yields that username
and password; conversely any successful decode re-encodes
(`username ++ ":" ++ password`) to the original payload, and neither part
contains `':'`; decoding fails whenever the separator is missing. -/
theorem C2_decode_single_colon :
    (∀ u p : List Char, ':' ∉ u → ':' ∉ p →
      decode_basic_auth (u ++ ':' :: p) = some (u, p)) ∧
    (∀ s u p : List Char, decode_basic_auth s = some (u, p) →
      u ++ ':' :: p = s ∧ ':' ∉ u ∧ ':' ∉ p) ∧
    (∀ s : List Char, ':' ∉ s → decode_basic_auth s = none) := by
  refine ⟨?_, ?_, ?_⟩
  · intro u p hu hp
    unfold decode_basic_auth
    rw [splitOnChar_append_cons ':' u p hu, splitOnChar_of_not_mem ':' p hp]
  · intro s u p h
    unfold decode_basic_auth at h
    cases hr : splitOnChar ':' s with
    | nil => exact absurd hr (splitOnChar_ne_nil ':' s)
    | cons y ys =>
      rw [hr] at h
      cases ys with
      | nil => simp at h
      | cons z zs =>
        cases zs with
        | nil =>
          simp only [Option.some.injEq, Prod.mk.injEq] at h
          obtain ⟨hy, hz⟩ := h
          obtain ⟨hs, hcu, hcp⟩ := splitOnChar_eq_pair ':' s y z hr
          rw [← hy, ← hz]
          exact ⟨hs.symm, hcu, hcp⟩
        | cons w ws => simp at h
  · intro s hs
    unfold decode_basic_auth
    rw [splitOnChar_of_not_mem ':' s hs]

/-- Witness for `C2_decode_single_colon`: the decoded payload
`"user:pass"` splits into `user` and `pass`, re-encodes to the original,
and a payload without a separator fails. -/
theorem C2_decode_single_colon_witness :
    decode_basic_auth ('u' :: 's' :: 'r' :: ':' :: 'p' :: 'w' :: []) =
        some (['u', 's', 'r'], ['p', 'w']) ∧
    decode_basic_auth ('u' :: 's' :: 'r' :: []) = none :=
  ⟨C2_decode_single_colon.1 ['u', 's', 'r'] ['p', 'w'] (by decide) (by decide),
   C2_decode_single_colon.2.2 ['u', 's', 'r'] (by decide)⟩

/-! ## Claims C3 and C4 -/

theorem dictInsert_key_eq (D : ℤ) (r : Snapshot) (data : Series) :
    ∀ kv ∈ dictInsert D r data, kv.1 = D → kv = (D, r) := by
  intro kv hmem hk
  unfold dictInsert at hmem
  split_ifs at hmem with h
  · obtain ⟨kv', hkv', heq⟩ := List.mem_map.mp hmem
    by_cases hk' : kv'.1 = D
    · rw [if_pos hk'] at heq
      exact heq.symm
    · rw [if_neg hk'] at heq
      rw [← heq] at hk
      exact absurd hk hk'
  · rcases List.mem_append.mp hmem with h' | h'
    · exact absurd (hk ▸ List.mem_map_of_mem Prod.fst h') h
    · simpa using h'

theorem dictInsert_self_mem (D : ℤ) (r : Snapshot) (data : Series) :
    (D, r) ∈ dictInsert D r data := by
  unfold dictInsert
  split_ifs with h
  · obtain ⟨kv, hkv, hk⟩ := List.mem_map.mp h
    exact List.mem_map.mpr ⟨kv, hkv, by rw [if_pos hk]⟩
  · exact List.mem_append.mpr (Or.inr (List.mem_singleton.mpr rfl))

theorem filter_key_eq_nil (D : ℤ) (data : Series) (h : D ∉ Series.keys data) :
    data.filter (fun kv => kv.1 = D) = [] := by
  rw [List.filter_eq_nil_iff]
  intro kv hkv
  simp only [decide_eq_true_eq]
  intro hk
  exact h (hk ▸ List.mem_map_of_mem Prod.fst hkv)

theorem filter_key_dictInsert (D : ℤ) (r : Snapshot) :
    ∀ (data : Series), (Series.keys data).Nodup →
      (dictInsert D r data).filter (fun kv => kv.1 = D) = [(D, r)] := by
  intro data
  induction data with
  | nil =>
    intro _
    simp [dictInsert, Series.keys, List.filter]
  | cons kv rest ih =>
    intro hnd
    have hnd' : (Series.keys rest).Nodup := (List.nodup_cons.mp hnd).2
    have hknr : kv.1 ∉ Series.keys rest := (List.nodup_cons.mp hnd).1
    by_cases hk : kv.1 = D
    · have hDmem : D ∈ Series.keys (kv :: rest) :=
        hk ▸ List.mem_cons_self kv.1 (Series.keys rest)
      unfold dictInsert
      rw [if_pos hDmem]
      rw [List.map_cons, if_pos hk]
      have hrest : (rest.map
          (fun kv => if kv.1 = D then (D, r) else kv)).filter
            (fun kv => kv.1 = D) = [] := by
        rw [List.filter_eq_nil_iff]
        intro x hx
        obtain ⟨kv', hkv', heq⟩ := List.mem_map.mp hx
        have hk' : kv'.1 ≠ D := fun hc =>
          hknr (hk.symm ▸ hc ▸ List.mem_map_of_mem Prod.fst hkv')
        rw [if_neg hk'] at heq
        simp only [decide_eq_true_eq]
        intro hc
        exact hk' (heq ▸ hc)
      simp [List.filter, hrest]
    · by_cases hD : D ∈ Series.keys rest
      · have hDmem : D ∈ Series.keys (kv :: rest) :=
          List.mem_cons_of_mem kv.1 hD
        have step : dictInsert D r (kv :: rest) = kv :: dictInsert D r rest := by
          unfold dictInsert
          rw [if_pos hDmem, if_pos hD, List.map_cons, if_neg hk]
        rw [step, List.filter_cons]
        simp only [decide_eq_true_eq]
        rw [if_neg hk]
        exact ih hnd' 
      · have hDmem : D ∉ Series.keys (kv :: rest) := by
          intro hc
          rcases List.mem_cons.mp hc with h' | h'
          · exact hk h'.symm
          · exact hD h'
        have step : dictInsert D r (kv :: rest) =
            kv :: (rest ++ [(D, r)]) := by
          unfold dictInsert
          rw [if_neg hDmem]
          rfl
        rw [step, List.filter_cons]
        simp only [decide_eq_true_eq]
        rw [if_neg hk, List.filter_append, filter_key_eq_nil D rest hD]
        simp [List.filter]

theorem mem_update_cutoff (D : ℤ) (r : Snapshot) (data : Series) :
    ∀ kv ∈ update_or_add_record D r data, D - 14 ≤ kv.1 := by
  intro kv hmem
  have h := List.mem_filter.mp hmem
  simpa using h.2

theorem update_self_mem (D : ℤ) (r : Snapshot) (data : Series) :
    (D, r) ∈ update_or_add_record D r data := by
  apply List.mem_filter.mpr
  refine ⟨dictInsert_self_mem D r data, ?_⟩
  simp only [decide_eq_true_eq]
  omega

theorem filter_key_update (D : ℤ) (r : Snapshot) (data : Series)
    (h : (Series.keys data).Nodup) :
    (update_or_add_record D r data).filter (fun kv => kv.1 = D) = [(D, r)] := by
  unfold update_or_add_record
  rw [List.filter_comm, filter_key_dictInsert D r data h]
  simp [List.filter, show D - 14 ≤ D by omega]

theorem update_idem (D : ℤ) (r : Snapshot) (data : Series) :
    update_or_add_record D r (update_or_add_record D r data) =
      update_or_add_record D r data := by
  have hall : ∀ kv ∈ update_or_add_record D r data, kv.1 = D → kv = (D, r) :=
    fun kv hmem hk =>
      dictInsert_key_eq D r data kv (List.mem_of_mem_filter hmem) hk
  have hkey : D ∈ Series.keys (update_or_add_record D r data) :=
    List.mem_map_of_mem Prod.fst (update_self_mem D r data)
  have hins : dictInsert D r (update_or_add_record D r data) =
      update_or_add_record D r data := by
    unfold dictInsert
    rw [if_pos hkey]
    have : ∀ kv ∈ update_or_add_record D r data,
        (if kv.1 = D then (D, r) else kv) = kv := by
      intro kv hmem
      by_cases hk : kv.1 = D
      · rw [if_pos hk, hall kv hmem hk]
      · rw [if_neg hk]
    rw [List.map_congr_left this]
    simp
  show (dictInsert D r (update_or_add_record D r data)).filter _ =
    update_or_add_record D r data
  rw [hins]
  apply List.filter_eq_self.mpr
  intro kv hmem
  exact (List.mem_filter.mp hmem).2

/-- Claim C3: after any write, no key in the stored series has a date
earlier than `today - 14`; writing on day `D` over existing entries at
`D - 20` and `D - 10` leaves exactly the entries for `D - 10` and `D`. -/
theorem C3_prune_retention :
    (∀ (data : Series) (D : ℤ) (rec : Snapshot),
      ∀ kv ∈ update_or_add_record D rec data, D - 14 ≤ kv.1) ∧
    (∀ (D : ℤ) (s1 s2 rec : Snapshot),
      update_or_add_record D rec [(D - 20, s1), (D - 10, s2)] =
        [(D - 10, s2), (D, rec)]) := by
  constructor
  · exact fun data D rec => mem_update_cutoff D rec data
  · intro D s1 s2 rec
    unfold update_or_add_record dictInsert
    rw [if_neg (by simp [Series.keys]; omega)]
    have h1 : ¬(D - 14 ≤ D - 20) := by omega
    have h2 : D - 14 ≤ D - 10 := by omega
    have h3 : D - 14 ≤ D := by omega
    simp [List.filter, h1, h2, h3]

/-- Witness for `C3_prune_retention`: both parts at `D = 0` with trivial
snapshots. -/
theorem C3_prune_retention_witness :
    ((0 : ℤ) - 14 ≤ ((0, Snapshot.mk "" []) : ℤ × Snapshot).1) ∧
    update_or_add_record 0 (Snapshot.mk "" [])
        [(0 - 20, Snapshot.mk "" []), (0 - 10, Snapshot.mk "" [])] =
      [(0 - 10, Snapshot.mk "" []), (0, Snapshot.mk "" [])] :=
  ⟨C3_prune_retention.1 [] 0 (Snapshot.mk "" []) (0, Snapshot.mk "" [])
      (by simp [update_or_add_record, dictInsert, Series.keys, List.filter]),
   C3_prune_retention.2 0 (Snapshot.mk "" []) (Snapshot.mk "" [])
      (Snapshot.mk "" [])⟩

/-- Claim C4: `write` is idempotent per calendar date — writing the same
snapshot twice on day `D` changes nothing after the first write, and the
resulting series holds exactly one entry for day `D`, equal to the last
snapshot written. -/
theorem C4_write_idempotent (data : Series) (D : ℤ) (r : Snapshot)
    (h : (Series.keys data).Nodup) :
    update_or_add_record D r (update_or_add_record D r data) =
      update_or_add_record D r data ∧
    (update_or_add_record D r (update_or_add_record D r data)).filter
      (fun kv => kv.1 = D) = [(D, r)] := by
  refine ⟨update_idem D r data, ?_⟩
  rw [update_idem D r data]
  exact filter_key_update D r data h

/-- Witness for `C4_write_idempotent`: a double write on day 3 over a
one-entry series. -/
theorem C4_write_idempotent_witness :
    update_or_add_record 3 (Snapshot.mk "t" [])
        (update_or_add_record 3 (Snapshot.mk "t" []) [(1, Snapshot.mk "s" [])]) =
      update_or_add_record 3 (Snapshot.mk "t" []) [(1, Snapshot.mk "s" [])] ∧
    (update_or_add_record 3 (Snapshot.mk "t" [])
        (update_or_add_record 3 (Snapshot.mk "t" [])
          [(1, Snapshot.mk "s" [])])).filter (fun kv => kv.1 = 3) =
      [(3, Snapshot.mk "t" [])] :=
  C4_write_idempotent [(1, Snapshot.mk "s" [])] 3 (Snapshot.mk "t" [])
    (by simp [Series.keys])

/-! ## Claim C6 -/

/-- Claim C6: whenever any pipeline step fails — script fetch, credential
extraction, credential decoding, API request, or rate parsing — the run
aborts with that error and the persisted store is left completely
unchanged; no partial snapshot is written for that run. -/
theorem C6_failed_run_leaves_store (js : Except ℕ (List Char))
    (search : List Char → Option (List Char))
    (api : List Char × List Char → Except ℕ ApiData)
    (today : ℤ) (ts : String) (store : Series) (e : PipelineError)
    (h : (run js search api today ts store).2 = .error e) :
    (run js search api today ts store).1 = store := by
  unfold run at h ⊢
  cases js with
  | error code => rfl
  | ok content =>
    cases hs : search content with
    | none => simp [hs]
    | some payload =>
      cases hd : decode_basic_auth payload with
      | none => simp [hs, hd]
      | some cred =>
        cases ha : api cred with
        | error code => simp [hs, hd, ha]
        | ok data =>
          cases he : extract_all_rates data with
          | none => simp [hs, hd, ha, he]
          | some rates =>
            simp [hs, hd, ha, he] at h

/-- Witness for `C6_failed_run_leaves_store`: a run whose script fetch
returns HTTP status 500 leaves a one-entry store untouched. -/
theorem C6_failed_run_leaves_store_witness :
    (run (.error 500) (fun _ => none) (fun _ => .error 401) 0 ""
        [(0, Snapshot.mk "" [])]).1 = [(0, Snapshot.mk "" [])] :=
  C6_failed_run_leaves_store (.error 500) (fun _ => none) (fun _ => .error 401)
    0 "" [(0, Snapshot.mk "" [])] (.fetchError 500) rfl

/-! ## Claim C7 -/

/-- Claim C7 as stated is false for the bot's reader: on an unparseable
persisted document `ExchangeRateBot.load_exchange_rates` (bot.py lines
260-262) logs and RE-RAISES instead of recovering, so the parse failure
propagates to the caller rather than yielding the empty series. -/
theorem C7_bot_read_propagates :
    load_exchange_rates none = .error () := by
  rfl

/-- Claim C7, amended: the storage reader `ExchangeRateStorage.load_data`
recovers from a malformed document by returning the empty series (and is
the identity on parseable ones), while the bot reader
`ExchangeRateBot.load_exchange_rates` propagates the parse failure. -/
theorem C7_corrupt_read_recovery :
    load_data none = [] ∧
    (∀ data : Series, load_data (some data) = data) ∧
    load_exchange_rates none = .error () ∧
    (∀ data : Series, load_exchange_rates (some data) = .ok data) :=
  ⟨rfl, fun _ => rfl, rfl, fun _ => rfl⟩

/-! ## Claim C8 -/

/-- Claim C8: the trend marker is UP when the current buying rate exceeds
the previous one, DOWN when it is below, FLAT when they are equal, and
FLAT when no previous value exists; with the spec's examples
`trend(5,4) = UP`, `trend(4,5) = DOWN`, `trend(5,5) = FLAT`,
`trend(5, None) = FLAT`. -/
theorem C8_trend_direction :
    (∀ c p : ℚ,
      (p < c → ExchangeRateBot.trend c (some p) = .up) ∧
      (c < p → ExchangeRateBot.trend c (some p) = .down) ∧
      (c = p → ExchangeRateBot.trend c (some p) = .flat)) ∧
    (∀ c : ℚ, ExchangeRateBot.trend c none = .flat) ∧
    ExchangeRateBot.trend 5 (some 4) = .up ∧
    ExchangeRateBot.trend 4 (some 5) = .down ∧
    ExchangeRateBot.trend 5 (some 5) = .flat ∧
    ExchangeRateBot.trend 5 none = .flat := by
  refine ⟨fun c p => ⟨?_, ?_, ?_⟩, fun c => rfl, by rfl, by rfl, by rfl, rfl⟩
  · intro h
    simp [ExchangeRateBot.trend, h]
  · intro h
    simp [ExchangeRateBot.trend, h, asymm h]
  · intro h
    subst h
    simp [ExchangeRateBot.trend, lt_irrefl]

/-- Witness for `C8_trend_direction`: the UP case at 5 versus 4. -/
theorem C8_trend_direction_witness :
    ExchangeRateBot.trend 5 (some 4) = ExchangeRateBot.Trend.up :=
  (C8_trend_direction.1 5 4).1 (by norm_num)

/-! ## Claim C9 -/

theorem descRange_cons (D : ℤ) (m : ℕ) :
    descRange D (m + 1) = D :: descRange (D - 1) m := by
  unfold descRange
  rw [List.range_succ_eq_map, List.map_cons, List.map_map]
  congr 1
  · norm_num
  · apply List.map_congr_left
    intro i _
    simp only [Function.comp_apply]
    push_cast
    ring

theorem descRange_pairwise (D : ℤ) (m : ℕ) :
    List.Pairwise (· > ·) (descRange D m) := by
  unfold descRange
  rw [List.pairwise_map]
  apply (List.pairwise_lt_range m).imp
  intro i j hij
  omega

theorem keys_consecSeries (D : ℤ) (m : ℕ) (snap : ℕ → Snapshot) :
    Series.keys (consecSeries D m snap) = descRange D m := by
  unfold Series.keys consecSeries descRange
  rw [List.map_map]
  rfl

theorem sortedDatesDesc_of_sorted (s : Series)
    (h : List.Pairwise (· > ·) (Series.keys s)) :
    sortedDatesDesc s = Series.keys s := by
  unfold sortedDatesDesc
  have hsorted : List.Sorted (· ≤ ·) (Series.keys s).reverse := by
    apply List.pairwise_reverse.mpr
    exact h.imp (fun hab => le_of_lt hab)
  have hperm : (List.insertionSort (· ≤ ·) (Series.keys s)).Perm
      (Series.keys s).reverse :=
    (List.perm_insertionSort _ _).trans (List.reverse_perm _).symm
  have heq := List.eq_of_perm_of_sorted hperm
    (List.sorted_insertionSort _ _) hsorted
  rw [heq, List.reverse_reverse]

theorem sortedDatesDesc_consec (D : ℤ) (m : ℕ) (snap : ℕ → Snapshot) :
    sortedDatesDesc (consecSeries D m snap) = descRange D m := by
  rw [sortedDatesDesc_of_sorted, keys_consecSeries]
  rw [keys_consecSeries]
  exact descRange_pairwise D m

theorem selectDates_descRange :
    ∀ (n : ℕ) (d0 d : ℤ), 1 ≤ n → (d0 - d) % 2 = 0 →
      ExchangeRateBot.selectDates d0 n (descRange d (2 * n)) =
        (List.range n).map (fun (i : ℕ) => d - 2 * (i : ℤ)) := by
  intro n
  induction n with
  | zero => intro d0 d h _; omega
  | succ n ih =>
    intro d0 d _ hpar
    cases n with
    | zero =>
      have h2 : descRange d 2 = [d, d - 1] := by
        unfold descRange
        norm_num [List.range_succ]
      show ExchangeRateBot.selectDates d0 1 (descRange d (2 * 1)) = _
      norm_num [h2, ExchangeRateBot.selectDates, hpar, List.range_succ]
    | succ m =>
      have hlist : descRange d (2 * (m + 1 + 1)) =
          d :: (d - 1) :: descRange (d - 2) (2 * (m + 1)) := by
        have h2 : 2 * (m + 1 + 1) = 2 * (m + 1) + 1 + 1 := by ring
        rw [h2, descRange_cons, descRange_cons,
          show d - 1 - 1 = d - 2 from by ring]
      have hskip : ¬((d0 - (d - 1)) % 2 = 0) := by omega
      have hpar2 : (d0 - (d - 2)) % 2 = 0 := by omega
      have hk : ¬(m + 1 + 1 ≤ 1) := by omega
      rw [hlist]
      unfold ExchangeRateBot.selectDates
      rw [if_pos hpar, if_neg hk]
      show d :: ExchangeRateBot.selectDates d0 (m + 1)
          ((d - 1) :: descRange (d - 2) (2 * (m + 1))) = _
      unfold ExchangeRateBot.selectDates
      rw [if_neg hskip]
      rw [ih d0 (d - 2) (by omega) hpar2]
      conv_rhs => rw [List.range_succ_eq_map]
      rw [List.map_cons, List.map_map]
      congr 1
      · norm_num
      · apply List.map_congr_left
        intro i _
        simp only [Function.comp_apply]
        push_cast
        ring

theorem selectDates_sublist (cur : ℤ) :
    ∀ (l : List ℤ) (k : ℕ), (ExchangeRateBot.selectDates cur k l).Sublist l := by
  intro l
  induction l with
  | nil => intro k; simp [ExchangeRateBot.selectDates]
  | cons d ds ih =>
    intro k
    unfold ExchangeRateBot.selectDates
    split_ifs with h1 h2
    · exact (List.nil_sublist ds).cons₂ d
    · exact (ih (k - 1)).cons₂ d
    · exact (ih k).cons d

theorem selectDates_length (cur : ℤ) :
    ∀ (l : List ℤ) (k : ℕ), 1 ≤ k →
      (ExchangeRateBot.selectDates cur k l).length ≤ k := by
  intro l
  induction l with
  | nil => intro k hk; simp [ExchangeRateBot.selectDates]
  | cons d ds ih =>
    intro k hk
    unfold ExchangeRateBot.selectDates
    split_ifs with h1 h2
    · simpa using hk
    · have := ih (k - 1) (by omega)
      simp only [List.length_cons]
      omega
    · exact ih k hk

theorem selectDates_mem (cur : ℤ) :
    ∀ (l : List ℤ) (k : ℕ) (x : ℤ),
      x ∈ ExchangeRateBot.selectDates cur k l →
        x ∈ l ∧ (cur - x) % 2 = 0 := by
  intro l
  induction l with
  | nil => intro k x hx; simp [ExchangeRateBot.selectDates] at hx
  | cons d ds ih =>
    intro k x hx
    unfold ExchangeRateBot.selectDates at hx
    split_ifs at hx with h1 h2
    · rw [List.mem_singleton] at hx
      subst hx
      exact ⟨List.mem_cons_self x ds, h1⟩
    · rcases List.mem_cons.mp hx with h | h
      · subst h
        exact ⟨List.mem_cons_self x ds, h1⟩
      · obtain ⟨hm, hp⟩ := ih (k - 1) x h
        exact ⟨List.mem_cons_of_mem d hm, hp⟩
    · obtain ⟨hm, hp⟩ := ih k x hx
      exact ⟨List.mem_cons_of_mem d hm, hp⟩

theorem lookup_isSome_of_mem_keys :
    ∀ (s : Series) (d : ℤ), d ∈ Series.keys s →
      ∃ snap, Series.lookup s d = some snap := by
  intro s
  induction s with
  | nil => intro d h; simp [Series.keys] at h
  | cons kv rest ih =>
    intro d h
    obtain ⟨k, v⟩ := kv
    by_cases hk : k = d
    · exact ⟨v, by simp [Series.lookup, hk]⟩
    · have : d ∈ Series.keys rest := by
        rcases List.mem_cons.mp h with h' | h'
        · exact absurd h'.symm hk
        · exact h'
      obtain ⟨snap, hsnap⟩ := ih d this
      exact ⟨snap, by simp [Series.lookup, hk, hsnap]⟩

theorem sortedDatesDesc_perm (s : Series) :
    (sortedDatesDesc s).Perm (Series.keys s) :=
  (List.reverse_perm _).trans (List.perm_insertionSort _ _)

theorem sortedDatesDesc_sorted (s : Series) :
    List.Sorted (· ≥ ·) (sortedDatesDesc s) := by
  unfold sortedDatesDesc
  apply List.pairwise_reverse.mpr
  exact List.sorted_insertionSort (· ≤ ·) (Series.keys s)

theorem sortedDatesDesc_head_max (s : Series) (d0 : ℤ) (rest : List ℤ)
    (h : sortedDatesDesc s = d0 :: rest) :
    d0 ∈ Series.keys s ∧ ∀ d ∈ Series.keys s, d ≤ d0 := by
  have hperm := sortedDatesDesc_perm s
  rw [h] at hperm
  constructor
  · exact hperm.mem_iff.mp (List.mem_cons_self d0 rest)
  · intro d hd
    have hmem : d ∈ d0 :: rest := hperm.mem_iff.mpr hd
    rcases List.mem_cons.mp hmem with h' | h'
    · exact le_of_eq h'
    · have hsorted := sortedDatesDesc_sorted s
      rw [h] at hsorted
      exact List.rel_of_sorted_cons hsorted d h'

theorem history_eq (c : String) (s : Series) (d0 : ℤ) (rest : List ℤ)
    (h : sortedDatesDesc s = d0 :: rest) :
    ExchangeRateBot.history c s =
      some ((ExchangeRateBot.selectDates d0 10 (d0 :: rest)).map
        (fun d => (d, ExchangeRateBot.buyingRateAt s c d))) := by
  unfold ExchangeRateBot.history
  rw [h]

/-- Claim C9: over a series of 20 consecutive daily dates, `history`
(stride 2, max 10 points) returns exactly 10 points at dates
`[D, D-2, ..., D-18]`, most recent first; and in general `history` walks
dates from the most recent backward, keeps only dates whose offset from
the most recent date is even, returns at most 10 points in descending
date order, every point's date a stored key, each point carrying the
stored buying rate for the currency when present and the absent marker
otherwise. -/
theorem C9_history_stride :
    (∀ (D : ℤ) (snap : ℕ → Snapshot) (c : String),
      ∃ pts, ExchangeRateBot.history c (consecSeries D 20 snap) = some pts ∧
        pts.map Prod.fst =
          (List.range 10).map (fun (i : ℕ) => D - 2 * (i : ℤ)) ∧
        pts.length = 10) ∧
    (∀ (c : String) (s : Series) (pts : List (ℤ × Option ℚ)),
      ExchangeRateBot.history c s = some pts →
      pts.length ≤ 10 ∧
      List.Sorted (· ≥ ·) (pts.map Prod.fst) ∧
      ∃ d0, d0 ∈ Series.keys s ∧ (∀ d ∈ Series.keys s, d ≤ d0) ∧
        ∀ pt ∈ pts, pt.1 ∈ Series.keys s ∧ (d0 - pt.1) % 2 = 0 ∧
          ∃ snap, Series.lookup s pt.1 = some snap ∧
            pt.2 = (ExchangeRateBot.ratesLookup snap.rates c).map
              RateRecord.buyingRate) := by
  constructor
  · intro D snap c
    have hsd : sortedDatesDesc (consecSeries D 20 snap) = descRange D 20 :=
      sortedDatesDesc_consec D 20 snap
    have hcons : descRange D 20 = D :: descRange (D - 1) 19 := by
      have h := descRange_cons D 19
      norm_num at h
      exact h
    have hsel : ExchangeRateBot.selectDates D 10 (descRange D 20) =
        (List.range 10).map (fun (i : ℕ) => D - 2 * (i : ℤ)) :=
      selectDates_descRange 10 D D (by norm_num) (by omega)
    have hh := history_eq c (consecSeries D 20 snap) D (descRange (D - 1) 19)
      (by rw [hsd, hcons])
    rw [← hcons, hsel] at hh
    refine ⟨_, hh, ?_, ?_⟩
    · simp [List.map_map, Function.comp]
    · simp
  · intro c s pts hh
    cases hsd : sortedDatesDesc s with
    | nil =>
      unfold ExchangeRateBot.history at hh
      rw [hsd] at hh
      simp at hh
    | cons d0 rest =>
      rw [history_eq c s d0 rest hsd] at hh
      simp only [Option.some.injEq] at hh
      subst hh
      obtain ⟨hd0mem, hd0max⟩ := sortedDatesDesc_head_max s d0 rest hsd
      refine ⟨?_, ?_, d0, hd0mem, hd0max, ?_⟩
      · rw [List.length_map]
        exact selectDates_length d0 (d0 :: rest) 10 (by norm_num)
      · have hsorted := sortedDatesDesc_sorted s
        rw [hsd] at hsorted
        have hsub := selectDates_sublist d0 (d0 :: rest) 10
        have hps : List.Pairwise (· ≥ ·)
            (ExchangeRateBot.selectDates d0 10 (d0 :: rest)) :=
          List.Pairwise.sublist hsub hsorted
        rw [List.map_map, show (Prod.fst ∘ fun d =>
          (d, ExchangeRateBot.buyingRateAt s c d)) = id from rfl, List.map_id]
        exact hps
      · intro pt hpt
        obtain ⟨d, hd_sel, heq⟩ := List.mem_map.mp hpt
        obtain ⟨hd_mem_list, hd_par⟩ :=
          selectDates_mem d0 (d0 :: rest) 10 d hd_sel
        have hd_keys : d ∈ Series.keys s := by
          have hperm := sortedDatesDesc_perm s
          rw [hsd] at hperm
          exact hperm.mem_iff.mp hd_mem_list
        obtain ⟨snap, hsnap⟩ := lookup_isSome_of_mem_keys s d hd_keys
        subst heq
        refine ⟨hd_keys, hd_par, snap, hsnap, ?_⟩
        unfold ExchangeRateBot.buyingRateAt
        rw [hsnap]
        cases h : ExchangeRateBot.ratesLookup snap.rates c <;> simp [h]

/-- Witness for `C9_history_stride`: a two-day series evaluates to the
single point `(0, absent)` for a currency with no stored rates, and the
general bound instantiates on it. -/
theorem C9_history_stride_witness :
    ExchangeRateBot.history "USD"
        (consecSeries 0 2 (fun _ => Snapshot.mk "" [])) =
      some [((0 : ℤ), (none : Option ℚ))] ∧
    ([((0 : ℤ), (none : Option ℚ))] : List (ℤ × Option ℚ)).length ≤ 10 :=
  ⟨rfl,
   (C9_history_stride.2 "USD" (consecSeries 0 2 (fun _ => Snapshot.mk "" []))
      [((0 : ℤ), (none : Option ℚ))] rfl).1⟩

/-! ## Claim C10 -/

theorem get_latest_rates_eq_single (s : Series) (d0 : ℤ) (snap : Snapshot)
    (hsd : sortedDatesDesc s = [d0]) (hsnap : Series.lookup s d0 = some snap) :
    ExchangeRateBot.get_latest_rates s = some (d0, snap.rates, none) := by
  unfold ExchangeRateBot.get_latest_rates
  rw [hsd]
  show (match Series.lookup s d0 with
    | none => none
    | some snap => some (d0, snap.rates, none)) = some (d0, snap.rates, none)
  rw [hsnap]

theorem get_latest_rates_eq_pair (s : Series) (d0 d1 : ℤ) (rest : List ℤ)
    (snap snap1 : Snapshot) (hsd : sortedDatesDesc s = d0 :: d1 :: rest)
    (hsnap : Series.lookup s d0 = some snap)
    (hsnap1 : Series.lookup s d1 = some snap1) :
    ExchangeRateBot.get_latest_rates s =
      some (d0, snap.rates, some snap1.rates) := by
  unfold ExchangeRateBot.get_latest_rates
  rw [hsd]
  show (match Series.lookup s d0 with
    | none => none
    | some snap =>
      match Series.lookup s d1 with
      | none => none
      | some snap1 => some (d0, snap.rates, some snap1.rates)) =
    some (d0, snap.rates, some snap1.rates)
  rw [hsnap]
  show (match Series.lookup s d1 with
    | none => none
    | some snap1 => some (d0, snap.rates, some snap1.rates)) =
    some (d0, snap.rates, some snap1.rates)
  rw [hsnap1]

/-- Claim C10: with an empty series the latest-rates query fails
(`sorted_dates[0]` raises `IndexError`, re-raised to the caller's generic
error path) instead of returning an empty or default result; for every
nonempty series it returns the maximum-date entry's rates and, exactly
when a second date exists, the rates stored at the second-maximum date. -/
theorem C10_latest_rates :
    ExchangeRateBot.get_latest_rates [] = none ∧
    (∀ s : Series, s ≠ [] → (Series.keys s).Nodup →
      ∃ r, ExchangeRateBot.get_latest_rates s = some r ∧
        r.1 ∈ Series.keys s ∧ (∀ d ∈ Series.keys s, d ≤ r.1) ∧
        (∃ snap, Series.lookup s r.1 = some snap ∧ r.2.1 = snap.rates) ∧
        ((Series.keys s).length = 1 → r.2.2 = none) ∧
        (2 ≤ (Series.keys s).length →
          ∃ d1 snap1, d1 ∈ Series.keys s ∧ d1 ≠ r.1 ∧
            (∀ d ∈ Series.keys s, d ≠ r.1 → d ≤ d1) ∧
            Series.lookup s d1 = some snap1 ∧ r.2.2 = some snap1.rates)) := by
  constructor
  · rfl
  · intro s hne hnd
    have hklen : (Series.keys s).length = s.length := List.length_map _ _
    have hperm := sortedDatesDesc_perm s
    cases hsd : sortedDatesDesc s with
    | nil =>
      exfalso
      rw [hsd] at hperm
      have : Series.keys s = [] := hperm.symm.eq_nil
      exact hne (List.map_eq_nil_iff.mp this)
    | cons d0 rest =>
      rw [hsd] at hperm
      obtain ⟨hd0mem, hd0max⟩ := sortedDatesDesc_head_max s d0 rest hsd
      obtain ⟨snap, hsnap⟩ := lookup_isSome_of_mem_keys s d0 hd0mem
      have hlen : (Series.keys s).length = rest.length + 1 := by
        rw [← hperm.length_eq]
        simp
      cases rest with
      | nil =>
        refine ⟨(d0, snap.rates, none), ?_, hd0mem, hd0max,
          ⟨snap, hsnap, rfl⟩, fun _ => rfl, ?_⟩
        · exact get_latest_rates_eq_single s d0 snap hsd hsnap
        · intro h2
          rw [hlen] at h2
          simp at h2
      | cons d1 rest' =>
        have hd1sd : d1 ∈ sortedDatesDesc s := by
          rw [hsd]
          exact List.mem_cons_of_mem d0 (List.mem_cons_self d1 rest')
        have hd1mem : d1 ∈ Series.keys s := hperm.mem_iff.mp
          (List.mem_cons_of_mem d0 (List.mem_cons_self d1 rest'))
        obtain ⟨snap1, hsnap1⟩ := lookup_isSome_of_mem_keys s d1 hd1mem
        have hndsd : (d0 :: d1 :: rest').Nodup := hperm.nodup_iff.mpr hnd
        have hd1ne : d1 ≠ d0 := by
          intro hc
          exact (List.nodup_cons.mp hndsd).1
            (hc ▸ List.mem_cons_self d1 rest')
        have hsorted := sortedDatesDesc_sorted s
        rw [hsd] at hsorted
        refine ⟨(d0, snap.rates, some snap1.rates), ?_, hd0mem, hd0max,
          ⟨snap, hsnap, rfl⟩, ?_, ?_⟩
        · exact get_latest_rates_eq_pair s d0 d1 rest' snap snap1 hsd
            hsnap hsnap1
        · intro h1
          rw [hlen] at h1
          simp at h1
        · intro _
          refine ⟨d1, snap1, hd1mem, hd1ne, ?_, hsnap1, rfl⟩
          intro d hd hdne
          have : d ∈ d0 :: d1 :: rest' := hperm.mem_iff.mpr hd
          rcases List.mem_cons.mp this with h' | h'
          · exact absurd h' hdne
          · rcases List.mem_cons.mp h' with h'' | h''
            · exact le_of_eq h''
            · exact List.rel_of_sorted_cons hsorted.of_cons d h''

/-- Witness for `C10_latest_rates`: a two-entry series with dates 1 and 0
yields a latest entry whose date is a stored key. -/
theorem C10_latest_rates_witness :
    ∃ r, ExchangeRateBot.get_latest_rates
        [((1 : ℤ), Snapshot.mk "a" []), ((0 : ℤ), Snapshot.mk "b" [])] =
          some r ∧
      r.1 ∈ Series.keys
        [((1 : ℤ), Snapshot.mk "a" []), ((0 : ℤ), Snapshot.mk "b" [])] := by
  obtain ⟨r, h1, h2, -⟩ := C10_latest_rates.2
    [((1 : ℤ), Snapshot.mk "a" []), ((0 : ℤ), Snapshot.mk "b" [])]
    (by simp) (by simp [Series.keys])
  exact ⟨r, h1, h2⟩
